import Mathlib

/-!
Verification of the zone-detection core of the repository
(`src/utils/zone_detector.py`): connected-component grouping of colored
cells (`group_contiguous_cells`), the alternating-pair label resolver
(`find_labels_with_alternating_pairs` and its two directional walks),
and the bounding-box merge step (`merge_zones` / `are_zones_adjacent`).

The Python functions are shallowly embedded as executable Lean
definitions.  Mutable state (the DFS `visited` set, the resolver's
`processed` set, the merge pass's `used` set) is threaded explicitly.
The DFS `while stack:` loop is modeled with an explicit fuel argument;
`group_contiguous_cells` supplies a fuel value that provably exceeds the
loop's potential function, so the fuel never runs out on the calls the
program actually makes.
-/

/-- A colored spreadsheet cell, as produced by the color index
(`color_detector.py` builds dicts with keys `row`, `col`, `value`, ...;
the zone-detector code reads exactly these three). Coordinates are
1-based. -/
structure Cell where
  row : Nat
  col : Nat
  value : String
deriving DecidableEq, Repr

/-- `(row, col)` key used for the `visited` set and the label map. -/
abbrev Key := Nat × Nat

def cellKey (c : Cell) : Key := (c.row, c.col)

/-- Bounding box of a zone (`zone['bounds']`). -/
structure Bounds where
  min_row : Nat
  max_row : Nat
  min_col : Nat
  max_col : Nat
deriving DecidableEq, Repr

/-- Direction tag of a label (`'horizontal'` labels are collected by the
upward column scan, `'vertical'` ones by the leftward row scan). -/
inductive Direction where
  | horizontal
  | vertical
deriving DecidableEq, Repr

/-- A label record as produced by the two directional walks
(the dicts built in `find_horizontal_labels_alternating` /
`find_vertical_labels_alternating`); `pair_name` is absent (`none`)
until `find_labels_with_alternating_pairs` fills it in. -/
structure FoundLabel where
  row : Nat
  col : Nat
  value : String
  type : String
  position : String
  direction : Direction
  pair_id : Nat
  distance : Nat
  color : String
  pair_name : Option String
deriving DecidableEq, Repr

/-- A zone record (`{'id', 'cells', 'bounds', 'cell_count', 'labels'}`).
`group_contiguous_cells` creates zones with `labels = []`; the label
resolver fills the field in. -/
structure Zone where
  id : Nat
  cells : List Cell
  bounds : Bounds
  cell_count : Nat
  labels : List FoundLabel
deriving DecidableEq, Repr

/-- Adjacency test from `get_neighbors` in `group_contiguous_cells`:
`(abs(c['row'] - cell['row']) == 1 and c['col'] == cell['col']) or
 (abs(c['col'] - cell['col']) == 1 and c['row'] == cell['row'])`. -/
def adjacentCells (c cell : Cell) : Bool :=
  (((c.row : Int) - (cell.row : Int)).natAbs == 1 && c.col == cell.col) ||
  (((c.col : Int) - (cell.col : Int)).natAbs == 1 && c.row == cell.row)

/-- `get_neighbors(cell, all_cells)` from `group_contiguous_cells`: the
cells of `all_cells` that are not yet visited and are orthogonally
adjacent to `cell` (in input order). -/
def get_neighbors (cell : Cell) (all_cells : List Cell) (visited : List Key) : List Cell :=
  all_cells.filter (fun c => !(decide (cellKey c ∈ visited)) && adjacentCells c cell)

/-- The inner `while stack:` loop of `group_contiguous_cells`, with the
Python list-as-stack (top of stack = head here; `stack.extend(ns)`
followed by `stack.pop()` pops the *last* neighbor first, hence
`ns.reverse ++ rest`).  `fuel` bounds the number of iterations; the
caller supplies a provably sufficient amount. -/
def zone_dfs (cells : List Cell) : Nat → List Cell → List Key → List Cell →
    List Cell × List Key
  | 0, _, visited, zone_cells => (zone_cells, visited)
  | _ + 1, [], visited, zone_cells => (zone_cells, visited)
  | fuel + 1, current :: rest, visited, zone_cells =>
    if cellKey current ∈ visited then
      zone_dfs cells fuel rest visited zone_cells
    else
      let visited2 := cellKey current :: visited
      zone_dfs cells fuel
        ((get_neighbors current cells visited2).reverse ++ rest)
        visited2 (zone_cells ++ [current])

/-- Bounds of a nonempty cell list (`min(c['row'] for c in zone_cells)`
etc., computed as a left fold starting from the first element, which is
how Python's `min`/`max` over a nonempty sequence behave). -/
def zoneBounds (c0 : Cell) (rest : List Cell) : Bounds :=
  { min_row := rest.foldl (fun m c => min m c.row) c0.row
    max_row := rest.foldl (fun m c => max m c.row) c0.row
    min_col := rest.foldl (fun m c => min m c.col) c0.col
    max_col := rest.foldl (fun m c => max m c.col) c0.col }

/-- Fuel supplied to `zone_dfs`: strictly larger than the potential
`(#unvisited cells) * (len(cells) + 1) + len(stack)` of the initial
state (the stack starts as a single cell). -/
def dfsFuel (cells : List Cell) (visited : List Key) : Nat :=
  (cells.countP fun c => decide (cellKey c ∉ visited)) * (cells.length + 1) + 2

/-- The `for i, cell in enumerate(cells):` loop of
`group_contiguous_cells`, threading the shared `visited` set and the
accumulated zone list. -/
def group_loop (cells : List Cell) : List Cell → List Key → List Zone → List Zone
  | [], _, zones => zones
  | cell :: todo, visited, zones =>
    if cellKey cell ∈ visited then
      group_loop cells todo visited zones
    else
      match zone_dfs cells (dfsFuel cells visited) [cell] visited [] with
      | (zone_cells, visited2) =>
        match zone_cells with
        | [] => group_loop cells todo visited2 zones
        | c0 :: zrest =>
          group_loop cells todo visited2
            (zones ++ [{ id := zones.length + 1
                         cells := c0 :: zrest
                         bounds := zoneBounds c0 zrest
                         cell_count := (c0 :: zrest).length
                         labels := [] }])

/-- `group_contiguous_cells(cells)`: DFS partition of the colored cells
into maximal 4-connected zones. -/
def group_contiguous_cells (cells : List Cell) : List Zone :=
  if cells = [] then []
  else group_loop cells cells [] []

/-- One configured color pair of the palette
(`{'horizontal': {'color', 'name'}, 'vertical': {'color', 'name'}}`);
`name` may be absent, which the resolver's `.get('name', default)`
handles. -/
structure PairConf where
  h_color : String
  h_name : Option String
  v_color : String
  v_name : Option String
deriving DecidableEq, Repr

/-- The color palette (`{'zone_color', 'label_pairs'}`; the zone/pair
display names are never read by the detector, so they are omitted). -/
structure Palette where
  zone_color : String
  label_pairs : List PairConf
deriving DecidableEq, Repr

/-- One entry of `label_cells_by_pair` as assembled by
`detect_zones_with_alternating_pairs`. -/
structure PairData where
  pair_id : Nat
  horizontal : List Cell
  vertical : List Cell
  h_color : String
  v_color : String
deriving DecidableEq, Repr

/-- An entry of the resolver's `label_map`: the label cell's own fields
merged with `pair_id`, `direction` and the pair's color for that
direction (`{**label, 'pair_id': ..., 'direction': ..., 'color': ...}`). -/
structure MapLabel where
  row : Nat
  col : Nat
  value : String
  pair_id : Nat
  direction : Direction
  color : String
deriving DecidableEq, Repr

/-- Lookup in an association-list model of a Python dict; entries are
prepended as they are written, so `find?` (first match) returns the most
recent write, i.e. Python's overwrite semantics. -/
def mapLookup (m : List (Key × MapLabel)) (k : Key) : Option MapLabel :=
  (m.find? (fun e => e.1 == k)).map (fun e => e.2)

/-- The `label_map` built at the top of
`find_labels_with_alternating_pairs`: for every pair (in order),
first the horizontal labels, then the vertical ones, keyed by
`(row, col)`; later writes shadow earlier ones. -/
def buildLabelMap (label_pairs : List PairData) : List (Key × MapLabel) :=
  label_pairs.foldl
    (fun m pd =>
      let m1 := pd.horizontal.foldl
        (fun m lab =>
          ((lab.row, lab.col),
           { row := lab.row, col := lab.col, value := lab.value
             pair_id := pd.pair_id, direction := Direction.horizontal
             color := pd.h_color }) :: m) m
      pd.vertical.foldl
        (fun m lab =>
          ((lab.row, lab.col),
           { row := lab.row, col := lab.col, value := lab.value
             pair_id := pd.pair_id, direction := Direction.vertical
             color := pd.v_color }) :: m) m1)
    []

/-- The `color_to_pair_and_type` dict built alongside `label_map`
(passed to the two walks but never read by them). -/
def buildColorToPair (label_pairs : List PairData) : List (String × Nat × Direction) :=
  label_pairs.foldl
    (fun m pd =>
      let m1 := pd.horizontal.foldl
        (fun m _ => (pd.h_color, pd.pair_id, Direction.horizontal) :: m) m
      pd.vertical.foldl
        (fun m _ => (pd.v_color, pd.pair_id, Direction.vertical) :: m) m1)
    []

/-- The label dict appended by `find_horizontal_labels_alternating` for
a hit at row `check_row` (type `h_pair_<id>`, position `top`,
`distance = row - check_row`). -/
def hRecord (row check_row : Nat) (label : MapLabel) : FoundLabel :=
  { row := label.row, col := label.col, value := label.value
    type := "h_pair_" ++ toString label.pair_id
    position := "top", direction := Direction.horizontal
    pair_id := label.pair_id, distance := row - check_row
    color := label.color, pair_name := none }

/-- The label dict appended by `find_vertical_labels_alternating` for a
hit at column `check_col` (type `v_pair_<id>`, position `left`,
`distance = col - check_col`). -/
def vRecord (col check_col : Nat) (label : MapLabel) : FoundLabel :=
  { row := label.row, col := label.col, value := label.value
    type := "v_pair_" ++ toString label.pair_id
    position := "left", direction := Direction.vertical
    pair_id := label.pair_id, distance := col - check_col
    color := label.color, pair_name := none }

/-- The descending scan `range(n, 0, -1)`: `[n, n-1, ..., 1]`. -/
def descRange : Nat → List Nat
  | 0 => []
  | n + 1 => (n + 1) :: descRange n

/-- Body of the `for check_row in range(row - 1, 0, -1):` loop of
`find_horizontal_labels_alternating`.  State: the collected `labels`,
`current_pair_id` (`none` models Python's `None`), and the returned
`Bool` records whether the loop ended with `break`.  A horizontal label
is appended and becomes the current pair in both the same-pair and the
changed-pair branch (the two Python branches have identical bodies); a
vertical label `break`s exactly when its `pair_id` equals
`current_pair_id` (so never while `current_pair_id` is `None`). -/
def hWalk (row col : Nat) (label_map : List (Key × MapLabel)) :
    List Nat → List FoundLabel → Option Nat → List FoundLabel × Option Nat × Bool
  | [], labels, current_pair_id => (labels, current_pair_id, false)
  | check_row :: rest, labels, current_pair_id =>
    match mapLookup label_map (check_row, col) with
    | none => hWalk row col label_map rest labels current_pair_id
    | some label =>
      match label.direction with
      | Direction.horizontal =>
        if current_pair_id = none ∨ current_pair_id = some label.pair_id then
          hWalk row col label_map rest (labels ++ [hRecord row check_row label])
            (some label.pair_id)
        else
          hWalk row col label_map rest (labels ++ [hRecord row check_row label])
            (some label.pair_id)
      | Direction.vertical =>
        if current_pair_id = some label.pair_id then (labels, current_pair_id, true)
        else hWalk row col label_map rest labels current_pair_id

/-- `find_horizontal_labels_alternating(row, col, label_map,
color_to_pair)`: scan the column upward collecting horizontal labels
(`color_to_pair` is accepted but never used, as in the source). -/
def find_horizontal_labels_alternating (row col : Nat)
    (label_map : List (Key × MapLabel)) (_color_to_pair : List (String × Nat × Direction)) :
    List FoundLabel :=
  (hWalk row col label_map (descRange (row - 1)) [] none).1

/-- Body of the `for check_col in range(col - 1, 0, -1):` loop of
`find_vertical_labels_alternating` (roles of the two directions
swapped relative to `hWalk`). -/
def vWalk (row col : Nat) (label_map : List (Key × MapLabel)) :
    List Nat → List FoundLabel → Option Nat → List FoundLabel × Option Nat × Bool
  | [], labels, current_pair_id => (labels, current_pair_id, false)
  | check_col :: rest, labels, current_pair_id =>
    match mapLookup label_map (row, check_col) with
    | none => vWalk row col label_map rest labels current_pair_id
    | some label =>
      match label.direction with
      | Direction.vertical =>
        if current_pair_id = none ∨ current_pair_id = some label.pair_id then
          vWalk row col label_map rest (labels ++ [vRecord col check_col label])
            (some label.pair_id)
        else
          vWalk row col label_map rest (labels ++ [vRecord col check_col label])
            (some label.pair_id)
      | Direction.horizontal =>
        if current_pair_id = some label.pair_id then (labels, current_pair_id, true)
        else vWalk row col label_map rest labels current_pair_id

/-- `find_vertical_labels_alternating(row, col, label_map,
color_to_pair)`: scan the row leftward collecting vertical labels. -/
def find_vertical_labels_alternating (row col : Nat)
    (label_map : List (Key × MapLabel)) (_color_to_pair : List (String × Nat × Direction)) :
    List FoundLabel :=
  (vWalk row col label_map (descRange (col - 1)) [] none).1

/-- Deduplication key used by the resolver:
`(label['row'], label['col'], label['direction'], label.get('pair_id'))`. -/
def labelKey (l : FoundLabel) : Nat × Nat × Direction × Nat :=
  (l.row, l.col, l.direction, l.pair_id)

/-- The `pair_name` enrichment performed just before a label is
appended: if `pair_id` indexes a configured pair, take that direction's
`name` with default `H<id+1>` / `V<id+1>`. -/
def attachPairName (color_palette : Palette) (label : FoundLabel) : FoundLabel :=
  if h : label.pair_id < color_palette.label_pairs.length then
    let pair := color_palette.label_pairs.get ⟨label.pair_id, h⟩
    match label.direction with
    | Direction.horizontal =>
      { label with pair_name := some (pair.h_name.getD ("H" ++ toString (label.pair_id + 1))) }
    | Direction.vertical =>
      { label with pair_name := some (pair.v_name.getD ("V" ++ toString (label.pair_id + 1))) }
  else label

/-- The `for label in horizontal_labels + vertical_labels:` loop of
`find_labels_with_alternating_pairs`: append each label whose key is not
yet in `processed`, recording its key. -/
def addFound (color_palette : Palette) :
    List FoundLabel → List FoundLabel × List (Nat × Nat × Direction × Nat) →
    List FoundLabel × List (Nat × Nat × Direction × Nat)
  | [], st => st
  | label :: rest, (labels, processed) =>
    if labelKey label ∈ processed then
      addFound color_palette rest (labels, processed)
    else
      addFound color_palette rest
        (labels ++ [attachPairName color_palette label], labelKey label :: processed)

/-- `find_labels_with_alternating_pairs(zone, label_pairs,
color_palette)`: build the label map, then walk up and left from every
zone cell, deduplicating across zone cells by `labelKey`. -/
def find_labels_with_alternating_pairs (zone : Zone) (label_pairs : List PairData)
    (color_palette : Palette) : List FoundLabel :=
  let label_map := buildLabelMap label_pairs
  let color_to_pair_and_type := buildColorToPair label_pairs
  (zone.cells.foldl
    (fun st zone_cell =>
      let horizontal_labels := find_horizontal_labels_alternating
        zone_cell.row zone_cell.col label_map color_to_pair_and_type
      let vertical_labels := find_vertical_labels_alternating
        zone_cell.row zone_cell.col label_map color_to_pair_and_type
      addFound color_palette (horizontal_labels ++ vertical_labels) st)
    ([], [])).1

/-- The per-sheet color index restricted to what the detector reads:
`color_cells` maps a color key to its cell list (`dict.get(c, [])`). -/
abbrev ColorCells := List (String × List Cell)

def getColorCells (color_cells : ColorCells) (color : String) : List Cell :=
  match color_cells.find? (fun e => e.1 == color) with
  | some e => e.2
  | none => []

/-- `detect_zones_with_alternating_pairs(workbook, sheet_name,
color_palette, color_cells)` (the `workbook`/`sheet_name` parameters are
never read and are dropped): group the zone-colored cells, then attach
labels to every zone; returns `(zones, label_cells_by_pair)`. -/
def detect_zones_with_alternating_pairs (color_palette : Palette)
    (color_cells : ColorCells) : List Zone × List PairData :=
  let zone_cells := getColorCells color_cells color_palette.zone_color
  let label_cells_by_pair := color_palette.label_pairs.enum.map
    (fun p =>
      { pair_id := p.1
        horizontal := getColorCells color_cells p.2.h_color
        vertical := getColorCells color_cells p.2.v_color
        h_color := p.2.h_color
        v_color := p.2.v_color })
  let zones := group_contiguous_cells zone_cells
  (zones.map (fun zone =>
      { zone with labels := find_labels_with_alternating_pairs zone label_cells_by_pair color_palette }),
   label_cells_by_pair)

/-- `are_zones_adjacent(bounds1, bounds2, max_gap)`: two sequential
checks (row-overlap within `max_gap` plus column-edge proximity, then
the transposed check), `False` otherwise.  Python's unbounded ints are
modeled by casting the coordinates to `Int`. -/
def are_zones_adjacent (bounds1 bounds2 : Bounds) (max_gap : Nat) : Bool :=
  if ((bounds1.min_row : Int) ≤ (bounds2.max_row : Int) + (max_gap : Int) ∧
      (bounds1.max_row : Int) ≥ (bounds2.min_row : Int) - (max_gap : Int)) ∧
     (((bounds1.max_col : Int) - (bounds2.min_col : Int)).natAbs ≤ max_gap ∨
      ((bounds2.max_col : Int) - (bounds1.min_col : Int)).natAbs ≤ max_gap) then
    true
  else if ((bounds1.min_col : Int) ≤ (bounds2.max_col : Int) + (max_gap : Int) ∧
      (bounds1.max_col : Int) ≥ (bounds2.min_col : Int) - (max_gap : Int)) ∧
     (((bounds1.max_row : Int) - (bounds2.min_row : Int)).natAbs ≤ max_gap ∨
      ((bounds2.max_row : Int) - (bounds1.min_row : Int)).natAbs ≤ max_gap) then
    true
  else
    false

/-- The `for j, zone2 in enumerate(zones[i+1:], i+1):` loop of
`merge_zones`: try to absorb every not-yet-used later zone whose bounds
are adjacent to **zone1's original bounds** (the Python code tests
`zone1['bounds']`, not the accumulated ones) into the accumulator. -/
def merge_inner (zone1_bounds : Bounds) (max_gap : Nat) :
    List (Nat × Zone) → List Nat → Zone → Zone × List Nat
  | [], used, merged_zone => (merged_zone, used)
  | (j, zone2) :: rest, used, merged_zone =>
    if j ∈ used then merge_inner zone1_bounds max_gap rest used merged_zone
    else if are_zones_adjacent zone1_bounds zone2.bounds max_gap then
      merge_inner zone1_bounds max_gap rest (j :: used)
        { merged_zone with
          cells := merged_zone.cells ++ zone2.cells
          labels := merged_zone.labels ++ zone2.labels
          bounds :=
            { min_row := min merged_zone.bounds.min_row zone2.bounds.min_row
              max_row := max merged_zone.bounds.max_row zone2.bounds.max_row
              min_col := min merged_zone.bounds.min_col zone2.bounds.min_col
              max_col := max merged_zone.bounds.max_col zone2.bounds.max_col } }
    else merge_inner zone1_bounds max_gap rest used merged_zone

/-- The `for i, zone1 in enumerate(zones):` loop of `merge_zones`.
`cell_count` is only set once the inner loop is done (the seed value 0
stands for the key being absent until then). -/
def merge_outer (max_gap : Nat) : List (Nat × Zone) → List Nat → List Zone → List Zone
  | [], _, merged => merged
  | (i, zone1) :: rest, used, merged =>
    if i ∈ used then merge_outer max_gap rest used merged
    else
      match merge_inner zone1.bounds max_gap rest used
        { id := merged.length + 1, cells := zone1.cells, bounds := zone1.bounds
          cell_count := 0, labels := zone1.labels } with
      | (merged_zone, used2) =>
        merge_outer max_gap rest used2
          (merged ++ [{ merged_zone with cell_count := merged_zone.cells.length }])

/-- `merge_zones(zones, max_gap=1)` (functional view: the values the
call returns; the in-place aliasing of the base zone's `labels` list is
modeled separately by `merge_zones_tracked`). -/
def merge_zones (zones : List Zone) (max_gap : Nat) : List Zone :=
  if zones.length ≤ 1 then zones
  else merge_outer max_gap zones.enum [] []

/-- Read of the shared label-list store (one slot per input zone). -/
def store_get (store : List (List FoundLabel)) (i : Nat) : List FoundLabel :=
  store.getD i []

/-- `merge_inner` with the Python object semantics of
`merged_zone['labels'] = zone1.get('labels', [])` made explicit:
`merged_zone['labels']` *is* input zone `i`'s list object, so every
`merged_zone['labels'].extend(zone2.get('labels', []))` writes through
to slot `i` of the store holding the input zones' label lists. -/
def merge_inner_tracked (zone1_bounds : Bounds) (max_gap : Nat) (i : Nat) :
    List (Nat × Zone) → List Nat → List Cell → Bounds → List (List FoundLabel) →
    List Cell × Bounds × List Nat × List (List FoundLabel)
  | [], used, acc_cells, acc_bounds, store => (acc_cells, acc_bounds, used, store)
  | (j, zone2) :: rest, used, acc_cells, acc_bounds, store =>
    if j ∈ used then
      merge_inner_tracked zone1_bounds max_gap i rest used acc_cells acc_bounds store
    else if are_zones_adjacent zone1_bounds zone2.bounds max_gap then
      merge_inner_tracked zone1_bounds max_gap i rest (j :: used)
        (acc_cells ++ zone2.cells)
        { min_row := min acc_bounds.min_row zone2.bounds.min_row
          max_row := max acc_bounds.max_row zone2.bounds.max_row
          min_col := min acc_bounds.min_col zone2.bounds.min_col
          max_col := max acc_bounds.max_col zone2.bounds.max_col }
        (store.set i (store_get store i ++ store_get store j))
    else merge_inner_tracked zone1_bounds max_gap i rest used acc_cells acc_bounds store

/-- `merge_outer` over the explicit store of the input zones' label
lists. -/
def merge_outer_tracked (max_gap : Nat) :
    List (Nat × Zone) → List Nat → List Zone → List (List FoundLabel) →
    List Zone × List (List FoundLabel)
  | [], _, merged, store => (merged, store)
  | (i, zone1) :: rest, used, merged, store =>
    if i ∈ used then merge_outer_tracked max_gap rest used merged store
    else
      match merge_inner_tracked zone1.bounds max_gap i rest used
        zone1.cells zone1.bounds store with
      | (cells2, bounds2, used2, store2) =>
        merge_outer_tracked max_gap rest used2
          (merged ++ [{ id := merged.length + 1, cells := cells2, bounds := bounds2
                        cell_count := cells2.length, labels := store_get store2 i }])
          store2

/-- `merge_zones` together with the final state of its *input* zone
records: the second component is what the caller's zone list looks like
after the call, i.e. each input zone with its (possibly extended in
place) `labels` list. -/
def merge_zones_tracked (zones : List Zone) (max_gap : Nat) : List Zone × List Zone :=
  if zones.length ≤ 1 then (zones, zones)
  else
    match merge_outer_tracked max_gap zones.enum [] [] (zones.map (fun z => z.labels)) with
    | (merged, store2) =>
      (merged, zones.enum.map (fun p => { p.2 with labels := store_get store2 p.1 }))

/-! ## General lemmas about the directional walks -/

theorem hWalk_append (row col : Nat) (m : List (Key × MapLabel)) :
    ∀ (xs ys : List Nat) (labels : List FoundLabel) (cur : Option Nat),
      hWalk row col m (xs ++ ys) labels cur =
        match hWalk row col m xs labels cur with
        | (ls, cur2, true) => (ls, cur2, true)
        | (ls, cur2, false) => hWalk row col m ys ls cur2
  | [], ys, labels, cur => by simp [hWalk]
  | check_row :: xs, ys, labels, cur => by
    cases h : mapLookup m (check_row, col) with
    | none =>
      simp only [List.cons_append, hWalk, h]
      exact hWalk_append row col m xs ys labels cur
    | some label =>
      cases hd : label.direction with
      | horizontal =>
        simp only [List.cons_append, hWalk, h, hd, ite_self]
        exact hWalk_append row col m xs ys _ _
      | vertical =>
        by_cases hc : cur = some label.pair_id
        · simp only [List.cons_append, hWalk, h, hd, if_pos hc]
        · simp only [List.cons_append, hWalk, h, hd, if_neg hc]
          exact hWalk_append row col m xs ys labels cur

theorem vWalk_append (row col : Nat) (m : List (Key × MapLabel)) :
    ∀ (xs ys : List Nat) (labels : List FoundLabel) (cur : Option Nat),
      vWalk row col m (xs ++ ys) labels cur =
        match vWalk row col m xs labels cur with
        | (ls, cur2, true) => (ls, cur2, true)
        | (ls, cur2, false) => vWalk row col m ys ls cur2
  | [], ys, labels, cur => by simp [vWalk]
  | check_col :: xs, ys, labels, cur => by
    cases h : mapLookup m (row, check_col) with
    | none =>
      simp only [List.cons_append, vWalk, h]
      exact vWalk_append row col m xs ys labels cur
    | some label =>
      cases hd : label.direction with
      | vertical =>
        simp only [List.cons_append, vWalk, h, hd, ite_self]
        exact vWalk_append row col m xs ys _ _
      | horizontal =>
        by_cases hc : cur = some label.pair_id
        · simp only [List.cons_append, vWalk, h, hd, if_pos hc]
        · simp only [List.cons_append, vWalk, h, hd, if_neg hc]
          exact vWalk_append row col m xs ys labels cur

theorem mapLookup_nil (k : Key) : mapLookup [] k = none := rfl

theorem hWalk_nil_map (row col : Nat) :
    ∀ (xs : List Nat) (labels : List FoundLabel) (cur : Option Nat),
      hWalk row col [] xs labels cur = (labels, cur, false)
  | [], _, _ => rfl
  | _ :: xs, labels, cur => by
    simp only [hWalk, mapLookup_nil]
    exact hWalk_nil_map row col xs labels cur

theorem vWalk_nil_map (row col : Nat) :
    ∀ (xs : List Nat) (labels : List FoundLabel) (cur : Option Nat),
      vWalk row col [] xs labels cur = (labels, cur, false)
  | [], _, _ => rfl
  | _ :: xs, labels, cur => by
    simp only [vWalk, mapLookup_nil]
    exact vWalk_nil_map row col xs labels cur

theorem foldl_addFound_no_pairs (color_palette : Palette) :
    ∀ (cs : List Cell) (st : List FoundLabel × List (Nat × Nat × Direction × Nat)),
      cs.foldl
        (fun st zone_cell =>
          addFound color_palette
            (find_horizontal_labels_alternating zone_cell.row zone_cell.col
                (buildLabelMap []) (buildColorToPair []) ++
             find_vertical_labels_alternating zone_cell.row zone_cell.col
                (buildLabelMap []) (buildColorToPair [])) st) st = st
  | [], _ => rfl
  | c :: cs, st => by
    have h1 : find_horizontal_labels_alternating c.row c.col
        (buildLabelMap []) (buildColorToPair []) = [] := by
      show (hWalk c.row c.col [] (descRange (c.row - 1)) [] none).1 = []
      rw [hWalk_nil_map]
    have h2 : find_vertical_labels_alternating c.row c.col
        (buildLabelMap []) (buildColorToPair []) = [] := by
      show (vWalk c.row c.col [] (descRange (c.col - 1)) [] none).1 = []
      rw [vWalk_nil_map]
    simp only [List.foldl_cons, h1, h2, List.nil_append]
    have h3 : addFound color_palette [] st = st := by
      match st with
      | (labels, processed) => rfl
    rw [h3]
    exact foldl_addFound_no_pairs color_palette cs st

theorem find_labels_no_pairs (zone : Zone) (color_palette : Palette) :
    find_labels_with_alternating_pairs zone [] color_palette = [] := by
  show (zone.cells.foldl
    (fun st zone_cell =>
      addFound color_palette
        (find_horizontal_labels_alternating zone_cell.row zone_cell.col
            (buildLabelMap []) (buildColorToPair []) ++
         find_vertical_labels_alternating zone_cell.row zone_cell.col
            (buildLabelMap []) (buildColorToPair [])) st)
    ([], [])).1 = []
  rw [foldl_addFound_no_pairs]

/-! ## C9: empty palette gives empty label lists -/

/-- **C9.** If the palette's `label_pairs` list is empty, every zone
produced by `detect_zones_with_alternating_pairs` carries an empty
`labels` list.  (The embedded functions are total, which reflects that
the Python code raises no exception on this input: the empty list is a
normal return value.) -/
theorem c9_empty_palette_empty_labels (color_palette : Palette) (color_cells : ColorCells)
    (hp : color_palette.label_pairs = []) :
    ∀ z ∈ (detect_zones_with_alternating_pairs color_palette color_cells).1,
      z.labels = [] := by
  intro z hz
  simp only [detect_zones_with_alternating_pairs, hp, List.enum_nil, List.map_nil,
    List.mem_map] at hz
  obtain ⟨z0, _, rfl⟩ := hz
  exact find_labels_no_pairs z0 color_palette

def c9_palette : Palette := { zone_color := "FF0000", label_pairs := [] }

def c9_color_cells : ColorCells := [("FF0000", [⟨1, 1, "v"⟩, ⟨1, 2, "w"⟩])]

/-- Witness for C9 at a concrete input: a palette with no configured
pairs and a sheet with two zone cells. -/
theorem c9_empty_palette_empty_labels_witness :
    c9_palette.label_pairs = [] ∧
    ∀ z ∈ (detect_zones_with_alternating_pairs c9_palette c9_color_cells).1,
      z.labels = [] :=
  ⟨rfl, c9_empty_palette_empty_labels c9_palette c9_color_cells rfl⟩

/-! ## C1: the same-pair stop rule -/

def c1_pairs : List PairData :=
  [{ pair_id := 0, horizontal := [⟨4, 1, ""⟩, ⟨1, 1, ""⟩], vertical := [⟨2, 1, ""⟩],
     h_color := "HA", v_color := "VA" },
   { pair_id := 1, horizontal := [⟨3, 1, ""⟩], vertical := [],
     h_color := "HB", v_color := "VB" }]

def c1_map : List (Key × MapLabel) := buildLabelMap c1_pairs

def c1_ctp : List (String × Nat × Direction) := buildColorToPair c1_pairs

/-- **C1, counterexample.**  Upward walk from `(5,1)` over the column
`row 4: H(pair 0), row 3: H(pair 1), row 2: V(pair 0), row 1: H(pair 0)`.
The first collectible-role label (`color0`) is the pair-0 horizontal at
row 4, and the first later opposite-role label with `color0`'s pair id
is the vertical at row 2 — yet the walk does *not* terminate there: it
also collects the horizontal label at row 1, beyond that position,
because the stop test compares against the pair of the *most recently
collected* label (pair 1 at that point), not against `color0`'s pair. -/
theorem c1_stop_rule_counterexample :
    mapLookup c1_map (4, 1) =
      some { row := 4, col := 1, value := "", pair_id := 0,
             direction := Direction.horizontal, color := "HA" } ∧
    mapLookup c1_map (3, 1) =
      some { row := 3, col := 1, value := "", pair_id := 1,
             direction := Direction.horizontal, color := "HB" } ∧
    mapLookup c1_map (2, 1) =
      some { row := 2, col := 1, value := "", pair_id := 0,
             direction := Direction.vertical, color := "VA" } ∧
    (find_horizontal_labels_alternating 5 1 c1_map c1_ctp).map (fun l => l.row) =
      [4, 3, 1] := by
  decide

/-- **C1, amended.**  During a directional walk, once some
collectible-role label has been collected, the walk terminates at the
first subsequent position holding a label of the opposite role whose
`pair_id` equals the pair of the *most recently collected* label
(`current_pair_id`) — which coincides with `color0`'s pair only until a
pair switch — and nothing at or beyond that position is collected.
Stated for the upward column scan and the leftward row scan. -/
theorem c1_stop_rule_amended :
    (∀ (label_map : List (Key × MapLabel)) (ctp : List (String × Nat × Direction))
       (row col k : Nat) (pre rest : List Nat) (L : List FoundLabel) (q : Nat)
       (label : MapLabel),
        descRange (row - 1) = pre ++ k :: rest →
        hWalk row col label_map pre [] none = (L, some q, false) →
        mapLookup label_map (k, col) = some label →
        label.direction = Direction.vertical →
        label.pair_id = q →
        find_horizontal_labels_alternating row col label_map ctp = L) ∧
    (∀ (label_map : List (Key × MapLabel)) (ctp : List (String × Nat × Direction))
       (row col k : Nat) (pre rest : List Nat) (L : List FoundLabel) (q : Nat)
       (label : MapLabel),
        descRange (col - 1) = pre ++ k :: rest →
        vWalk row col label_map pre [] none = (L, some q, false) →
        mapLookup label_map (row, k) = some label →
        label.direction = Direction.horizontal →
        label.pair_id = q →
        find_vertical_labels_alternating row col label_map ctp = L) := by
  constructor
  · intro label_map ctp row col k pre rest L q label hsplit hpre hlook hdir hpid
    unfold find_horizontal_labels_alternating
    rw [hsplit, hWalk_append, hpre]
    show (hWalk row col label_map (k :: rest) L (some q)).1 = L
    simp only [hWalk, hlook, hdir, hpid, if_pos rfl, if_true]
  · intro label_map ctp row col k pre rest L q label hsplit hpre hlook hdir hpid
    unfold find_vertical_labels_alternating
    rw [hsplit, vWalk_append, hpre]
    show (vWalk row col label_map (k :: rest) L (some q)).1 = L
    simp only [vWalk, hlook, hdir, hpid, if_pos rfl, if_true]

def c1w_pairs : List PairData :=
  [{ pair_id := 0, horizontal := [⟨3, 1, "a"⟩, ⟨1, 1, "b"⟩], vertical := [⟨2, 1, "s"⟩],
     h_color := "HH", v_color := "VV" }]

def c1w_map : List (Key × MapLabel) := buildLabelMap c1w_pairs

def c1w_ctp : List (String × Nat × Direction) := buildColorToPair c1w_pairs

/-- Witness for the amended C1: with a single pair
(`row 3: H, row 2: V, row 1: H` above `(4,1)`), the walk collects the
row-3 horizontal label, then stops at the row-2 vertical label of the
same pair; the label at row 1 is not collected. -/
theorem c1_stop_rule_amended_witness :
    descRange (4 - 1) = [3] ++ 2 :: [1] ∧
    hWalk 4 1 c1w_map [3] [] none =
      ([hRecord 4 3 { row := 3, col := 1, value := "a", pair_id := 0,
                      direction := Direction.horizontal, color := "HH" }], some 0, false) ∧
    mapLookup c1w_map (2, 1) =
      some { row := 2, col := 1, value := "s", pair_id := 0,
             direction := Direction.vertical, color := "VV" } ∧
    find_horizontal_labels_alternating 4 1 c1w_map c1w_ctp =
      [hRecord 4 3 { row := 3, col := 1, value := "a", pair_id := 0,
                     direction := Direction.horizontal, color := "HH" }] :=
  ⟨by decide, by decide, by decide,
   c1_stop_rule_amended.1 c1w_map c1w_ctp 4 1 2 [3] [1]
     [hRecord 4 3 { row := 3, col := 1, value := "a", pair_id := 0,
                    direction := Direction.horizontal, color := "HH" }] 0
     { row := 2, col := 1, value := "s", pair_id := 0,
       direction := Direction.vertical, color := "VV" }
     (by decide) (by decide) (by decide) rfl rfl⟩

/-! ## C2: labels of other pairs are (not) filtered after color0 -/

def c2_pairs : List PairData :=
  [{ pair_id := 0, horizontal := [⟨4, 1, "x"⟩], vertical := [],
     h_color := "AA", v_color := "BB" },
   { pair_id := 1, horizontal := [⟨3, 1, "y"⟩], vertical := [],
     h_color := "CC", v_color := "DD" }]

def c2_map : List (Key × MapLabel) := buildLabelMap c2_pairs

def c2_ctp : List (String × Nat × Direction) := buildColorToPair c2_pairs

/-- **C2, counterexample.**  Upward walk from `(5,1)`: the first
collectible-role label is the pair-0 horizontal at row 4 (`color0 =
"AA"`); the pair-1 horizontal at row 3 has a different color, yet it
*is* appended to the walk's result (Python's changed-pair branch also
appends). -/
theorem c2_color0_filter_counterexample :
    mapLookup c2_map (4, 1) =
      some { row := 4, col := 1, value := "x", pair_id := 0,
             direction := Direction.horizontal, color := "AA" } ∧
    (find_horizontal_labels_alternating 5 1 c2_map c2_ctp).map
        (fun l => (l.color, l.pair_id)) = [("AA", 0), ("CC", 1)] := by
  decide

theorem hWalk_all_collectible (row col : Nat) (m : List (Key × MapLabel)) :
    ∀ (xs : List Nat) (labels : List FoundLabel) (cur : Option Nat),
      (∀ j ∈ xs, Option.all (fun label => label.direction == Direction.horizontal)
          (mapLookup m (j, col)) = true) →
      ∃ cur2, hWalk row col m xs labels cur =
        (labels ++ xs.filterMap
            (fun j => (mapLookup m (j, col)).map (fun label => hRecord row j label)),
         cur2, false)
  | [], labels, cur, _ => ⟨cur, by simp [hWalk]⟩
  | j :: xs, labels, cur, h => by
    have hr : ∀ j2 ∈ xs, Option.all (fun label => label.direction == Direction.horizontal)
        (mapLookup m (j2, col)) = true := fun j2 hj2 => h j2 (List.mem_cons_of_mem _ hj2)
    cases hl : mapLookup m (j, col) with
    | none =>
      obtain ⟨cur2, ih⟩ := hWalk_all_collectible row col m xs labels cur hr
      exact ⟨cur2, by simp only [hWalk, hl, List.filterMap_cons, Option.map_none', ih]⟩
    | some label =>
      have hd : label.direction = Direction.horizontal := by
        have := h j (List.mem_cons_self j xs)
        rw [hl] at this
        simpa using this
      obtain ⟨cur2, ih⟩ := hWalk_all_collectible row col m xs
        (labels ++ [hRecord row j label]) (some label.pair_id) hr
      refine ⟨cur2, ?_⟩
      simp only [hWalk, hl, hd, ite_self, ih, List.filterMap_cons, Option.map_some',
        List.append_assoc, List.singleton_append]

theorem vWalk_all_collectible (row col : Nat) (m : List (Key × MapLabel)) :
    ∀ (xs : List Nat) (labels : List FoundLabel) (cur : Option Nat),
      (∀ j ∈ xs, Option.all (fun label => label.direction == Direction.vertical)
          (mapLookup m (row, j)) = true) →
      ∃ cur2, vWalk row col m xs labels cur =
        (labels ++ xs.filterMap
            (fun j => (mapLookup m (row, j)).map (fun label => vRecord col j label)),
         cur2, false)
  | [], labels, cur, _ => ⟨cur, by simp [vWalk]⟩
  | j :: xs, labels, cur, h => by
    have hr : ∀ j2 ∈ xs, Option.all (fun label => label.direction == Direction.vertical)
        (mapLookup m (row, j2)) = true := fun j2 hj2 => h j2 (List.mem_cons_of_mem _ hj2)
    cases hl : mapLookup m (row, j) with
    | none =>
      obtain ⟨cur2, ih⟩ := vWalk_all_collectible row col m xs labels cur hr
      exact ⟨cur2, by simp only [vWalk, hl, List.filterMap_cons, Option.map_none', ih]⟩
    | some label =>
      have hd : label.direction = Direction.vertical := by
        have := h j (List.mem_cons_self j xs)
        rw [hl] at this
        simpa using this
      obtain ⟨cur2, ih⟩ := vWalk_all_collectible row col m xs
        (labels ++ [vRecord col j label]) (some label.pair_id) hr
      refine ⟨cur2, ?_⟩
      simp only [vWalk, hl, hd, ite_self, ih, List.filterMap_cons, Option.map_some',
        List.append_assoc, List.singleton_append]

/-- **C2, amended.**  After `color0` is set, the walk keeps appending
*every* collectible-role label it meets — also those of other
pairs/colors — switching `current_pair_id` each time.  In particular,
on any scan whose positions hold only collectible-role labels (no
stopping-role label anywhere), the result is exactly the list of all
encountered labels, one record per occupied position, regardless of
color. -/
theorem c2_all_pairs_emitted :
    (∀ (label_map : List (Key × MapLabel)) (ctp : List (String × Nat × Direction))
       (row col : Nat),
        (∀ j ∈ descRange (row - 1),
          Option.all (fun label => label.direction == Direction.horizontal)
            (mapLookup label_map (j, col)) = true) →
        find_horizontal_labels_alternating row col label_map ctp =
          (descRange (row - 1)).filterMap
            (fun j => (mapLookup label_map (j, col)).map (fun label => hRecord row j label))) ∧
    (∀ (label_map : List (Key × MapLabel)) (ctp : List (String × Nat × Direction))
       (row col : Nat),
        (∀ j ∈ descRange (col - 1),
          Option.all (fun label => label.direction == Direction.vertical)
            (mapLookup label_map (row, j)) = true) →
        find_vertical_labels_alternating row col label_map ctp =
          (descRange (col - 1)).filterMap
            (fun j => (mapLookup label_map (row, j)).map (fun label => vRecord col j label))) := by
  constructor
  · intro label_map ctp row col h
    obtain ⟨cur2, hw⟩ := hWalk_all_collectible row col label_map (descRange (row - 1)) [] none h
    unfold find_horizontal_labels_alternating
    rw [hw]
    simp
  · intro label_map ctp row col h
    obtain ⟨cur2, hw⟩ := vWalk_all_collectible row col label_map (descRange (col - 1)) [] none h
    unfold find_vertical_labels_alternating
    rw [hw]
    simp

/-- Witness for the amended C2 at the counterexample's input: the column
above `(5,1)` holds only collectible-role labels, and the walk emits
both of them — including the pair-1 label whose color differs from
`color0`. -/
theorem c2_all_pairs_emitted_witness :
    (∀ j ∈ descRange (5 - 1),
      Option.all (fun label => label.direction == Direction.horizontal)
        (mapLookup c2_map (j, 1)) = true) ∧
    find_horizontal_labels_alternating 5 1 c2_map c2_ctp =
      (descRange (5 - 1)).filterMap
        (fun j => (mapLookup c2_map (j, 1)).map (fun label => hRecord 5 j label)) :=
  ⟨by decide, c2_all_pairs_emitted.1 c2_map c2_ctp 5 1 (by decide)⟩

/-! ## C10: opposite-role labels met before the pair is set -/

theorem hWalk_pass_through (row col : Nat) (m : List (Key × MapLabel)) :
    ∀ (xs : List Nat) (labels : List FoundLabel),
      (∀ j ∈ xs, Option.all (fun label => label.direction == Direction.vertical)
          (mapLookup m (j, col)) = true) →
      hWalk row col m xs labels none = (labels, none, false)
  | [], _, _ => rfl
  | j :: xs, labels, h => by
    have hr : ∀ j2 ∈ xs, Option.all (fun label => label.direction == Direction.vertical)
        (mapLookup m (j2, col)) = true := fun j2 hj2 => h j2 (List.mem_cons_of_mem _ hj2)
    cases hl : mapLookup m (j, col) with
    | none =>
      simp only [hWalk, hl]
      exact hWalk_pass_through row col m xs labels hr
    | some label =>
      have hd : label.direction = Direction.vertical := by
        have := h j (List.mem_cons_self j xs)
        rw [hl] at this
        simpa using this
      have hne : (none : Option Nat) ≠ some label.pair_id := by simp
      simp only [hWalk, hl, hd, if_neg hne]
      exact hWalk_pass_through row col m xs labels hr

theorem vWalk_pass_through (row col : Nat) (m : List (Key × MapLabel)) :
    ∀ (xs : List Nat) (labels : List FoundLabel),
      (∀ j ∈ xs, Option.all (fun label => label.direction == Direction.horizontal)
          (mapLookup m (row, j)) = true) →
      vWalk row col m xs labels none = (labels, none, false)
  | [], _, _ => rfl
  | j :: xs, labels, h => by
    have hr : ∀ j2 ∈ xs, Option.all (fun label => label.direction == Direction.horizontal)
        (mapLookup m (row, j2)) = true := fun j2 hj2 => h j2 (List.mem_cons_of_mem _ hj2)
    cases hl : mapLookup m (row, j) with
    | none =>
      simp only [vWalk, hl]
      exact vWalk_pass_through row col m xs labels hr
    | some label =>
      have hd : label.direction = Direction.horizontal := by
        have := h j (List.mem_cons_self j xs)
        rw [hl] at this
        simpa using this
      have hne : (none : Option Nat) ≠ some label.pair_id := by simp
      simp only [vWalk, hl, hd, if_neg hne]
      exact vWalk_pass_through row col m xs labels hr

/-- **C10.**  A stopping-role label met while `current_pair_id` is still
unset (before any collectible-role label has been seen on the walk)
neither stops the walk nor is collected: if every position of an initial
segment of the scan is empty or holds an opposite-role label, the walk's
result is exactly the result of walking the remaining, farther positions
from the initial state — so collectible-role labels at greater distance
can still be collected.  Stated for the upward column scan and the
leftward row scan. -/
theorem c10_pass_through_before_pair_set :
    (∀ (label_map : List (Key × MapLabel)) (ctp : List (String × Nat × Direction))
       (row col : Nat) (pre rest : List Nat),
        descRange (row - 1) = pre ++ rest →
        (∀ j ∈ pre, Option.all (fun label => label.direction == Direction.vertical)
            (mapLookup label_map (j, col)) = true) →
        find_horizontal_labels_alternating row col label_map ctp =
          (hWalk row col label_map rest [] none).1) ∧
    (∀ (label_map : List (Key × MapLabel)) (ctp : List (String × Nat × Direction))
       (row col : Nat) (pre rest : List Nat),
        descRange (col - 1) = pre ++ rest →
        (∀ j ∈ pre, Option.all (fun label => label.direction == Direction.horizontal)
            (mapLookup label_map (row, j)) = true) →
        find_vertical_labels_alternating row col label_map ctp =
          (vWalk row col label_map rest [] none).1) := by
  constructor
  · intro label_map ctp row col pre rest hsplit h
    unfold find_horizontal_labels_alternating
    rw [hsplit, hWalk_append, hWalk_pass_through row col label_map pre [] h]
  · intro label_map ctp row col pre rest hsplit h
    unfold find_vertical_labels_alternating
    rw [hsplit, vWalk_append, vWalk_pass_through row col label_map pre [] h]

def c10_pairs : List PairData :=
  [{ pair_id := 0, horizontal := [⟨1, 1, "deep"⟩], vertical := [⟨3, 1, "pass"⟩],
     h_color := "HH", v_color := "VV" }]

def c10_map : List (Key × MapLabel) := buildLabelMap c10_pairs

def c10_ctp : List (String × Nat × Direction) := buildColorToPair c10_pairs

/-- Witness for C10: above `(4,1)` the column holds a vertical
(stopping-role) label at row 3 and a horizontal label at row 1.  The
walk passes through the row-3 label without collecting it and still
collects the row-1 label at distance 3. -/
theorem c10_pass_through_before_pair_set_witness :
    descRange (4 - 1) = [3, 2] ++ [1] ∧
    (∀ j ∈ [3, 2], Option.all (fun label => label.direction == Direction.vertical)
        (mapLookup c10_map (j, 1)) = true) ∧
    find_horizontal_labels_alternating 4 1 c10_map c10_ctp =
      (hWalk 4 1 c10_map [1] [] none).1 ∧
    (find_horizontal_labels_alternating 4 1 c10_map c10_ctp).map
        (fun l => (l.row, l.direction, l.distance)) = [(1, Direction.horizontal, 3)] :=
  ⟨by decide, by decide,
   c10_pass_through_before_pair_set.1 c10_map c10_ctp 4 1 [3, 2] [1] (by decide) (by decide),
   by decide⟩

/-! ## C3: deduplication across zone cells -/

theorem labelKey_attachPairName (color_palette : Palette) (l : FoundLabel) :
    labelKey (attachPairName color_palette l) = labelKey l := by
  obtain ⟨r, c, v, t, pos, d, pid, dist, co, pn⟩ := l
  cases d <;> (unfold attachPairName; split <;> rfl)

def ResolverInv (st : List FoundLabel × List (Nat × Nat × Direction × Nat)) : Prop :=
  (st.1.map labelKey).Nodup ∧ ∀ l ∈ st.1, labelKey l ∈ st.2

theorem addFound_inv (color_palette : Palette) :
    ∀ (ls : List FoundLabel) (labels : List FoundLabel)
      (processed : List (Nat × Nat × Direction × Nat)),
      ResolverInv (labels, processed) →
      ResolverInv (addFound color_palette ls (labels, processed))
  | [], _, _, h => h
  | label :: ls, labels, processed, h => by
    obtain ⟨hnd, hmem⟩ := h
    by_cases hk : labelKey label ∈ processed
    · simp only [addFound, if_pos hk]
      exact addFound_inv color_palette ls labels processed ⟨hnd, hmem⟩
    · simp only [addFound, if_neg hk]
      apply addFound_inv color_palette ls
      constructor
      · simp only [List.map_append, List.map_cons, List.map_nil,
          labelKey_attachPairName]
        rw [List.nodup_append]
        refine ⟨hnd, List.nodup_singleton _, ?_⟩
        intro k hk1 hk2
        simp only [List.mem_singleton] at hk2
        subst hk2
        obtain ⟨l, hl, hlk⟩ := List.mem_map.mp hk1
        exact hk (hlk ▸ hmem l hl)
      · intro l hl
        rcases List.mem_append.mp hl with hl1 | hl2
        · exact List.mem_cons_of_mem _ (hmem l hl1)
        · simp only [List.mem_singleton] at hl2
          subst hl2
          rw [labelKey_attachPairName]
          exact List.mem_cons_self _ _

theorem foldl_addFound_inv (color_palette : Palette) (g : Cell → List FoundLabel) :
    ∀ (cs : List Cell) (st : List FoundLabel × List (Nat × Nat × Direction × Nat)),
      ResolverInv st →
      ResolverInv (cs.foldl (fun st zone_cell => addFound color_palette (g zone_cell) st) st)
  | [], _, h => h
  | c :: cs, st, h => by
    simp only [List.foldl_cons]
    apply foldl_addFound_inv color_palette g cs
    obtain ⟨labels, processed⟩ := st
    exact addFound_inv color_palette (g c) labels processed h

/-- **C3, amended.**  The resolver *does* deduplicate across zone cells:
inside `find_labels_with_alternating_pairs` the `processed` set is keyed
by `(row, col, direction, pair_id)`, so the label list returned for a
zone never contains two records with the same key — each physical header
cell appears at most once per `(direction, pair_id)`, no matter how many
zone cells' walks discover it.  Consumers do not need to deduplicate. -/
theorem c3_resolver_deduplicates (zone : Zone) (label_pairs : List PairData)
    (color_palette : Palette) :
    ((find_labels_with_alternating_pairs zone label_pairs color_palette).map labelKey).Nodup := by
  have h := foldl_addFound_inv color_palette
    (fun zone_cell =>
      find_horizontal_labels_alternating zone_cell.row zone_cell.col
          (buildLabelMap label_pairs) (buildColorToPair label_pairs) ++
        find_vertical_labels_alternating zone_cell.row zone_cell.col
          (buildLabelMap label_pairs) (buildColorToPair label_pairs))
    zone.cells ([], []) ⟨List.nodup_nil, by simp⟩
  exact h.1

def c3_zone : Zone :=
  { id := 1, cells := [⟨2, 2, "z1"⟩, ⟨3, 2, "z2"⟩], bounds := ⟨2, 3, 2, 2⟩,
    cell_count := 2, labels := [] }

def c3_pairs : List PairData :=
  [{ pair_id := 0, horizontal := [⟨1, 2, "hdr"⟩], vertical := [],
     h_color := "0000FF", v_color := "00FF00" }]

def c3_palette : Palette :=
  { zone_color := "FF0000",
    label_pairs := [{ h_color := "0000FF", h_name := some "H1",
                      v_color := "00FF00", v_name := some "V1" }] }

/-- **C3, counterexample.**  A 2-cell column zone under a single header
cell `(1,2)`: the upward walks of *both* zone cells discover that
physical header cell, yet the zone's resolved label list contains
exactly one record for it — not one per discovering zone cell as the
claim states. -/
theorem c3_duplicates_counterexample :
    (find_horizontal_labels_alternating 2 2 (buildLabelMap c3_pairs)
        (buildColorToPair c3_pairs)).map labelKey = [(1, 2, Direction.horizontal, 0)] ∧
    (find_horizontal_labels_alternating 3 2 (buildLabelMap c3_pairs)
        (buildColorToPair c3_pairs)).map labelKey = [(1, 2, Direction.horizontal, 0)] ∧
    (find_labels_with_alternating_pairs c3_zone c3_pairs c3_palette).map labelKey =
      [(1, 2, Direction.horizontal, 0)] := by
  decide

/-! ## C4: the end-to-end scenario -/

def c4_palette : Palette :=
  { zone_color := "FF0000",
    label_pairs := [{ h_color := "0000FF", h_name := some "Headers H1",
                      v_color := "00FF00", v_name := some "Headers V1" }] }

/-- The scenario sheet: zone color `FF0000` at (2,2),(2,3),(3,2),(3,3);
row-header color `00FF00` at (2,1),(3,1) (collected by the leftward
scan, i.e. the pair's `vertical` slot); col-header color `0000FF` at
(1,2),(1,3) (collected by the upward scan, the pair's `horizontal`
slot). -/
def c4_color_cells : ColorCells :=
  [("FF0000", [⟨2, 2, "a"⟩, ⟨2, 3, "b"⟩, ⟨3, 2, "c"⟩, ⟨3, 3, "d"⟩]),
   ("00FF00", [⟨2, 1, "r2"⟩, ⟨3, 1, "r3"⟩]),
   ("0000FF", [⟨1, 2, "c2"⟩, ⟨1, 3, "c3"⟩])]

def c4_zones : List Zone :=
  (detect_zones_with_alternating_pairs c4_palette c4_color_cells).1

def c4_pair_data : List PairData :=
  (detect_zones_with_alternating_pairs c4_palette c4_color_cells).2

def c4_map : List (Key × MapLabel) := buildLabelMap c4_pair_data

def c4_ctp : List (String × Nat × Direction) := buildColorToPair c4_pair_data

/-- **C4, counterexample.**  In the scenario, zone cell `(3,3)` is a
member of the single detected zone, but its upward walk resolves its
col-header label `(1,3)` at distance **2**, and its leftward walk
resolves its row-header label `(3,1)` at distance **2** — refuting the
claim that each of the 4 zone cells resolves both of its labels at
distance 1. -/
theorem c4_scenario_counterexample :
    c4_zones.length = 1 ∧
    (∀ z ∈ c4_zones, (⟨3, 3, "d"⟩ : Cell) ∈ z.cells) ∧
    (find_horizontal_labels_alternating 3 3 c4_map c4_ctp).map
        (fun l => (l.row, l.col, l.distance)) = [(1, 3, 2)] ∧
    (find_vertical_labels_alternating 3 3 c4_map c4_ctp).map
        (fun l => (l.row, l.col, l.distance)) = [(3, 1, 2)] := by
  decide

/-- **C4, amended.**  The scenario yields exactly one Zone with bounds
`{min_row 2, max_row 3, min_col 2, max_col 3}` and `cell_count` 4; each
of the 4 zone cells resolves exactly one row-header and one col-header
label, at distance equal to its coordinate offset from that header
(1 for the adjacent row/column, 2 for the far one); and the zone's
label list — already deduplicated by physical cell by the resolver —
has exactly 4 labels (2 row-headers and 2 col-headers). -/
theorem c4_scenario_amended :
    c4_zones.length = 1 ∧
    (∀ z ∈ c4_zones,
      z.bounds = { min_row := 2, max_row := 3, min_col := 2, max_col := 3 }) ∧
    (∀ z ∈ c4_zones, z.cell_count = 4) ∧
    (∀ z ∈ c4_zones,
      z.labels.map (fun l => (l.row, l.col, l.direction, l.pair_id, l.distance)) =
        [(1, 2, Direction.horizontal, 0, 1), (2, 1, Direction.vertical, 0, 1),
         (3, 1, Direction.vertical, 0, 1), (1, 3, Direction.horizontal, 0, 2)]) ∧
    (∀ z ∈ c4_zones, (z.labels.map labelKey).Nodup) ∧
    (∀ z ∈ c4_zones, z.labels.countP (fun l => l.direction == Direction.vertical) = 2) ∧
    (∀ z ∈ c4_zones, z.labels.countP (fun l => l.direction == Direction.horizontal) = 2) ∧
    ((find_horizontal_labels_alternating 2 2 c4_map c4_ctp).map
        (fun l => (l.row, l.col, l.distance)) = [(1, 2, 1)] ∧
     (find_vertical_labels_alternating 2 2 c4_map c4_ctp).map
        (fun l => (l.row, l.col, l.distance)) = [(2, 1, 1)]) ∧
    ((find_horizontal_labels_alternating 2 3 c4_map c4_ctp).map
        (fun l => (l.row, l.col, l.distance)) = [(1, 3, 1)] ∧
     (find_vertical_labels_alternating 2 3 c4_map c4_ctp).map
        (fun l => (l.row, l.col, l.distance)) = [(2, 1, 2)]) ∧
    ((find_horizontal_labels_alternating 3 2 c4_map c4_ctp).map
        (fun l => (l.row, l.col, l.distance)) = [(1, 2, 2)] ∧
     (find_vertical_labels_alternating 3 2 c4_map c4_ctp).map
        (fun l => (l.row, l.col, l.distance)) = [(3, 1, 1)]) ∧
    ((find_horizontal_labels_alternating 3 3 c4_map c4_ctp).map
        (fun l => (l.row, l.col, l.distance)) = [(1, 3, 2)] ∧
     (find_vertical_labels_alternating 3 3 c4_map c4_ctp).map
        (fun l => (l.row, l.col, l.distance)) = [(3, 1, 2)]) := by
  exact ⟨by decide, by decide, by decide, by decide, by decide, by decide, by decide,
    ⟨by decide, by decide⟩, ⟨by decide, by decide⟩, ⟨by decide, by decide⟩,
    by decide, by decide⟩

/-! ## C6: the merge boundary -/

def c6_z1 : Zone := { id := 1, cells := [⟨1, 1, "a"⟩], bounds := ⟨1, 1, 1, 1⟩,
                      cell_count := 1, labels := [] }

def c6_z2 : Zone := { id := 2, cells := [⟨1, 3, "b"⟩], bounds := ⟨1, 1, 3, 3⟩,
                      cell_count := 1, labels := [] }

/-- **C6, counterexample.**  Two row-aligned one-cell zones occupying
columns 1 and 3: exactly one grid column (column 2) lies strictly
between their bounding boxes, i.e. they are separated by exactly
`max_gap` columns for `max_gap = 1`.  The code does **not** merge them:
`are_zones_adjacent` requires `|max_col₁ - min_col₂| ≤ max_gap`, and
here that coordinate difference is `max_gap + 1 = 2`. -/
theorem c6_merge_boundary_counterexample :
    c6_z1.bounds.max_col + 1 + 1 = c6_z2.bounds.min_col ∧
    are_zones_adjacent c6_z1.bounds c6_z2.bounds 1 = false ∧
    (merge_zones [c6_z1, c6_z2] 1).length = 2 := by
  decide

/-- **C6, amended.**  For row-aligned zones (same row range, left zone
`z1`, right zone `z2`), the merge boundary sits at a *coordinate*
difference of `max_gap`: if `z2.min_col - z1.max_col = max_gap` (that
is, `max_gap - 1` empty columns between the boxes) the two zones merge
into one; if `z2.min_col - z1.max_col = max_gap + 1` (`max_gap` empty
columns between them) they stay separate. -/
theorem c6_merge_boundary_amended (z1 z2 : Zone) (max_gap : Nat)
    (hrmin : z1.bounds.min_row = z2.bounds.min_row)
    (hrmax : z1.bounds.max_row = z2.bounds.max_row)
    (hr : z1.bounds.min_row ≤ z1.bounds.max_row)
    (hc1 : z1.bounds.min_col ≤ z1.bounds.max_col)
    (hc2 : z2.bounds.min_col ≤ z2.bounds.max_col) :
    (z2.bounds.min_col = z1.bounds.max_col + max_gap →
      (merge_zones [z1, z2] max_gap).length = 1) ∧
    (z2.bounds.min_col = z1.bounds.max_col + max_gap + 1 →
      (merge_zones [z1, z2] max_gap).length = 2) := by
  constructor
  · intro hgap
    have hadj : are_zones_adjacent z1.bounds z2.bounds max_gap = true := by
      unfold are_zones_adjacent
      rw [if_pos]
      constructor
      · constructor <;> omega
      · left
        omega
    simp [merge_zones, merge_outer, merge_inner, hadj]
  · intro hgap
    have hadj : are_zones_adjacent z1.bounds z2.bounds max_gap = false := by
      unfold are_zones_adjacent
      rw [if_neg, if_neg]
      · intro h
        omega
      · intro h
        omega
    simp [merge_zones, merge_outer, merge_inner, hadj]

def c6_w2 : Zone := { id := 2, cells := [⟨1, 3, "c"⟩], bounds := ⟨1, 2, 3, 4⟩,
                      cell_count := 1, labels := [] }

def c6_w1 : Zone := { id := 1, cells := [⟨1, 1, "a"⟩], bounds := ⟨1, 2, 1, 2⟩,
                      cell_count := 1, labels := [] }

def c6_w3 : Zone := { id := 2, cells := [⟨1, 4, "d"⟩], bounds := ⟨1, 2, 4, 5⟩,
                      cell_count := 1, labels := [] }

/-- Witness for the amended C6 with `max_gap = 1`: boxes with
`min_col₂ - max_col₁ = 1` (touching) merge into one zone, boxes with
`min_col₂ - max_col₁ = 2` (one empty column) stay two zones. -/
theorem c6_merge_boundary_amended_witness :
    (merge_zones [c6_w1, c6_w2] 1).length = 1 ∧
    (merge_zones [c6_w1, c6_w3] 1).length = 2 :=
  ⟨(c6_merge_boundary_amended c6_w1 c6_w2 1 rfl rfl (by decide) (by decide)
      (by decide)).1 (by decide),
   (c6_merge_boundary_amended c6_w1 c6_w3 1 rfl rfl (by decide) (by decide)
      (by decide)).2 (by decide)⟩

/-! ## C8: merge_zones and its input records -/

def c8_lab1 : FoundLabel :=
  { row := 1, col := 1, value := "ha", type := "h_pair_0", position := "top",
    direction := Direction.horizontal, pair_id := 0, distance := 1,
    color := "AA", pair_name := some "H1" }

def c8_lab2 : FoundLabel :=
  { row := 1, col := 2, value := "hb", type := "h_pair_0", position := "top",
    direction := Direction.horizontal, pair_id := 0, distance := 1,
    color := "AA", pair_name := some "H1" }

def c8_z1 : Zone := { id := 1, cells := [⟨2, 1, "a"⟩], bounds := ⟨2, 2, 1, 1⟩,
                      cell_count := 1, labels := [c8_lab1] }

def c8_z2 : Zone := { id := 2, cells := [⟨2, 2, "b"⟩], bounds := ⟨2, 2, 2, 2⟩,
                      cell_count := 1, labels := [c8_lab2] }

/-- **C8.**  `merge_zones` is *not* pure over its inputs: the merged
zone's `labels` list is the very list object of the base input zone
(`merged_zone['labels'] = zone1.get('labels', [])` — no copy, unlike
the `[:]` copy of `cells` and the `.copy()` of `bounds`), so each
`merged_zone['labels'].extend(...)` also mutates input `zone1`.
Evaluating the state-tracking embedding at two adjacent one-cell zones:
after the call the caller's first zone carries both labels instead of
its original single one. -/
theorem c8_merge_zones_mutates_input :
    c8_z1.labels = [c8_lab1] ∧
    (merge_zones_tracked [c8_z1, c8_z2] 1).2 ≠ [c8_z1, c8_z2] ∧
    (merge_zones_tracked [c8_z1, c8_z2] 1).2 =
      [{ c8_z1 with labels := [c8_lab1, c8_lab2] }, c8_z2] := by
  refine ⟨rfl, ?_, by decide⟩
  intro h
  have h2 : (merge_zones_tracked [c8_z1, c8_z2] 1).2.map (fun z => z.labels.length) =
      [1, 1] := by rw [h]; decide
  revert h2
  decide

/-! ## C7: bounding-box tightness -/

theorem foldl_min_le_init (f : Cell → Nat) :
    ∀ (l : List Cell) (a : Nat), l.foldl (fun m c => min m (f c)) a ≤ a
  | [], _ => le_refl _
  | c :: l, a =>
    le_trans (foldl_min_le_init f l (min a (f c))) (Nat.min_le_left _ _)

theorem foldl_min_le_mem (f : Cell → Nat) :
    ∀ (l : List Cell) (a : Nat) (c : Cell), c ∈ l →
      l.foldl (fun m c => min m (f c)) a ≤ f c
  | [], _, _, h => absurd h (List.not_mem_nil _)
  | c0 :: l, a, c, h => by
    rcases List.mem_cons.mp h with h1 | h2
    · subst h1
      exact le_trans (foldl_min_le_init f l (min a (f c))) (Nat.min_le_right _ _)
    · exact foldl_min_le_mem f l (min a (f c0)) c h2

theorem foldl_min_attained (f : Cell → Nat) :
    ∀ (l : List Cell) (a : Nat),
      l.foldl (fun m c => min m (f c)) a = a ∨
      ∃ c ∈ l, l.foldl (fun m c => min m (f c)) a = f c
  | [], a => Or.inl rfl
  | c0 :: l, a => by
    rcases foldl_min_attained f l (min a (f c0)) with h | ⟨c, hc, hfc⟩
    · simp only [List.foldl_cons, h]
      rcases Nat.le_total a (f c0) with h1 | h1
      · exact Or.inl (Nat.min_eq_left h1)
      · exact Or.inr ⟨c0, List.mem_cons_self _ _, Nat.min_eq_right h1⟩
    · exact Or.inr ⟨c, List.mem_cons_of_mem _ hc, hfc⟩

theorem foldl_max_ge_init (f : Cell → Nat) :
    ∀ (l : List Cell) (a : Nat), a ≤ l.foldl (fun m c => max m (f c)) a
  | [], _ => le_refl _
  | c :: l, a =>
    le_trans (Nat.le_max_left _ _) (foldl_max_ge_init f l (max a (f c)))

theorem foldl_max_ge_mem (f : Cell → Nat) :
    ∀ (l : List Cell) (a : Nat) (c : Cell), c ∈ l →
      f c ≤ l.foldl (fun m c => max m (f c)) a
  | [], _, _, h => absurd h (List.not_mem_nil _)
  | c0 :: l, a, c, h => by
    rcases List.mem_cons.mp h with h1 | h2
    · subst h1
      exact le_trans (Nat.le_max_right _ _) (foldl_max_ge_init f l (max a (f c)))
    · exact foldl_max_ge_mem f l (max a (f c0)) c h2

theorem foldl_max_attained (f : Cell → Nat) :
    ∀ (l : List Cell) (a : Nat),
      l.foldl (fun m c => max m (f c)) a = a ∨
      ∃ c ∈ l, l.foldl (fun m c => max m (f c)) a = f c
  | [], a => Or.inl rfl
  | c0 :: l, a => by
    rcases foldl_max_attained f l (max a (f c0)) with h | ⟨c, hc, hfc⟩
    · simp only [List.foldl_cons, h]
      rcases Nat.le_total a (f c0) with h1 | h1
      · exact Or.inr ⟨c0, List.mem_cons_self _ _, Nat.max_eq_right h1⟩
      · exact Or.inl (Nat.max_eq_left h1)
    · exact Or.inr ⟨c, List.mem_cons_of_mem _ hc, hfc⟩

/-- `bounds` is exactly the componentwise min/max over `cells`: every
cell lies inside the box, and each of the four box edges is attained by
some cell. -/
def TightCB (cells : List Cell) (b : Bounds) : Prop :=
  (∀ c ∈ cells, b.min_row ≤ c.row ∧ c.row ≤ b.max_row ∧
      b.min_col ≤ c.col ∧ c.col ≤ b.max_col) ∧
  (∃ c ∈ cells, c.row = b.min_row) ∧
  (∃ c ∈ cells, c.row = b.max_row) ∧
  (∃ c ∈ cells, c.col = b.min_col) ∧
  (∃ c ∈ cells, c.col = b.max_col)

def TightZone (z : Zone) : Prop := TightCB z.cells z.bounds

instance (cells : List Cell) (b : Bounds) : Decidable (TightCB cells b) := by
  unfold TightCB
  infer_instance

instance (z : Zone) : Decidable (TightZone z) := by
  unfold TightZone
  infer_instance

theorem tight_zoneBounds (c0 : Cell) (zrest : List Cell) :
    TightCB (c0 :: zrest) (zoneBounds c0 zrest) := by
  refine ⟨?_, ?_, ?_, ?_, ?_⟩
  · intro c hc
    rcases List.mem_cons.mp hc with h1 | h2
    · subst h1
      exact ⟨foldl_min_le_init _ zrest _, foldl_max_ge_init _ zrest _,
        foldl_min_le_init _ zrest _, foldl_max_ge_init _ zrest _⟩
    · exact ⟨foldl_min_le_mem _ zrest _ c h2, foldl_max_ge_mem _ zrest _ c h2,
        foldl_min_le_mem _ zrest _ c h2, foldl_max_ge_mem _ zrest _ c h2⟩
  · rcases foldl_min_attained (fun c => c.row) zrest c0.row with h | ⟨c, hc, hfc⟩
    · exact ⟨c0, List.mem_cons_self _ _, h.symm⟩
    · exact ⟨c, List.mem_cons_of_mem _ hc, hfc.symm⟩
  · rcases foldl_max_attained (fun c => c.row) zrest c0.row with h | ⟨c, hc, hfc⟩
    · exact ⟨c0, List.mem_cons_self _ _, h.symm⟩
    · exact ⟨c, List.mem_cons_of_mem _ hc, hfc.symm⟩
  · rcases foldl_min_attained (fun c => c.col) zrest c0.col with h | ⟨c, hc, hfc⟩
    · exact ⟨c0, List.mem_cons_self _ _, h.symm⟩
    · exact ⟨c, List.mem_cons_of_mem _ hc, hfc.symm⟩
  · rcases foldl_max_attained (fun c => c.col) zrest c0.col with h | ⟨c, hc, hfc⟩
    · exact ⟨c0, List.mem_cons_self _ _, h.symm⟩
    · exact ⟨c, List.mem_cons_of_mem _ hc, hfc.symm⟩

theorem group_loop_tight (cells : List Cell) :
    ∀ (todo : List Cell) (visited : List Key) (zones : List Zone),
      (∀ z ∈ zones, TightZone z) →
      ∀ z ∈ group_loop cells todo visited zones, TightZone z
  | [], _, _, h => h
  | cell :: todo, visited, zones, h => by
    by_cases hv : cellKey cell ∈ visited
    · simp only [group_loop, if_pos hv]
      exact group_loop_tight cells todo visited zones h
    · simp only [group_loop, if_neg hv]
      cases hd : zone_dfs cells (dfsFuel cells visited) [cell] visited [] with
      | mk zone_cells visited2 =>
        cases zone_cells with
        | nil => exact group_loop_tight cells todo visited2 zones h
        | cons c0 zrest =>
          apply group_loop_tight cells todo visited2
          intro z hz
          rcases List.mem_append.mp hz with h1 | h2
          · exact h z h1
          · simp only [List.mem_singleton] at h2
            subst h2
            exact tight_zoneBounds c0 zrest

theorem TightCB_union (ca cb : List Cell) (ba bb : Bounds)
    (ha : TightCB ca ba) (hb : TightCB cb bb) :
    TightCB (ca ++ cb)
      { min_row := min ba.min_row bb.min_row, max_row := max ba.max_row bb.max_row
        min_col := min ba.min_col bb.min_col, max_col := max ba.max_col bb.max_col } := by
  obtain ⟨hain, ⟨a1, ha1, he1⟩, ⟨a2, ha2, he2⟩, ⟨a3, ha3, he3⟩, ⟨a4, ha4, he4⟩⟩ := ha
  obtain ⟨hbin, ⟨b1, hb1, hf1⟩, ⟨b2, hb2, hf2⟩, ⟨b3, hb3, hf3⟩, ⟨b4, hb4, hf4⟩⟩ := hb
  refine ⟨?_, ?_, ?_, ?_, ?_⟩
  · intro c hc
    rcases List.mem_append.mp hc with h1 | h2
    · obtain ⟨x1, x2, x3, x4⟩ := hain c h1
      exact ⟨le_trans (Nat.min_le_left _ _) x1, le_trans x2 (Nat.le_max_left _ _),
        le_trans (Nat.min_le_left _ _) x3, le_trans x4 (Nat.le_max_left _ _)⟩
    · obtain ⟨x1, x2, x3, x4⟩ := hbin c h2
      exact ⟨le_trans (Nat.min_le_right _ _) x1, le_trans x2 (Nat.le_max_right _ _),
        le_trans (Nat.min_le_right _ _) x3, le_trans x4 (Nat.le_max_right _ _)⟩
  · rcases Nat.le_total ba.min_row bb.min_row with h | h
    · exact ⟨a1, List.mem_append_left _ ha1, by rw [he1, Nat.min_eq_left h]⟩
    · exact ⟨b1, List.mem_append_right _ hb1, by rw [hf1, Nat.min_eq_right h]⟩
  · rcases Nat.le_total ba.max_row bb.max_row with h | h
    · exact ⟨b2, List.mem_append_right _ hb2, by rw [hf2, Nat.max_eq_right h]⟩
    · exact ⟨a2, List.mem_append_left _ ha2, by rw [he2, Nat.max_eq_left h]⟩
  · rcases Nat.le_total ba.min_col bb.min_col with h | h
    · exact ⟨a3, List.mem_append_left _ ha3, by rw [he3, Nat.min_eq_left h]⟩
    · exact ⟨b3, List.mem_append_right _ hb3, by rw [hf3, Nat.min_eq_right h]⟩
  · rcases Nat.le_total ba.max_col bb.max_col with h | h
    · exact ⟨b4, List.mem_append_right _ hb4, by rw [hf4, Nat.max_eq_right h]⟩
    · exact ⟨a4, List.mem_append_left _ ha4, by rw [he4, Nat.max_eq_left h]⟩

theorem merge_inner_tight (b : Bounds) (g : Nat) :
    ∀ (todo : List (Nat × Zone)) (used : List Nat) (acc : Zone),
      TightZone acc → (∀ p ∈ todo, TightZone p.2) →
      TightZone (merge_inner b g todo used acc).1
  | [], _, _, hacc, _ => hacc
  | (j, zone2) :: todo, used, acc, hacc, htodo => by
    have htodo2 : ∀ p ∈ todo, TightZone p.2 :=
      fun p hp => htodo p (List.mem_cons_of_mem _ hp)
    by_cases hj : j ∈ used
    · simp only [merge_inner, if_pos hj]
      exact merge_inner_tight b g todo used acc hacc htodo2
    · by_cases hadj : are_zones_adjacent b zone2.bounds g = true
      · simp only [merge_inner, if_neg hj, if_pos hadj]
        apply merge_inner_tight b g todo (j :: used)
        · exact TightCB_union acc.cells zone2.cells acc.bounds zone2.bounds hacc
            (htodo (j, zone2) (List.mem_cons_self _ _))
        · exact htodo2
      · simp only [merge_inner, if_neg hj, if_neg hadj]
        exact merge_inner_tight b g todo used acc hacc htodo2

theorem merge_outer_tight (g : Nat) :
    ∀ (todo : List (Nat × Zone)) (used : List Nat) (merged : List Zone),
      (∀ p ∈ todo, TightZone p.2) → (∀ z ∈ merged, TightZone z) →
      ∀ z ∈ merge_outer g todo used merged, TightZone z
  | [], _, _, _, hm => hm
  | (i, zone1) :: todo, used, merged, htodo, hm => by
    have htodo2 : ∀ p ∈ todo, TightZone p.2 :=
      fun p hp => htodo p (List.mem_cons_of_mem _ hp)
    by_cases hi : i ∈ used
    · simp only [merge_outer, if_pos hi]
      exact merge_outer_tight g todo used merged htodo2 hm
    · simp only [merge_outer, if_neg hi]
      cases hmi : merge_inner zone1.bounds g todo used
        { id := merged.length + 1, cells := zone1.cells, bounds := zone1.bounds
          cell_count := 0, labels := zone1.labels } with
      | mk merged_zone used2 =>
        apply merge_outer_tight g todo used2
        · exact htodo2
        · intro z hz
          rcases List.mem_append.mp hz with h1 | h2
          · exact hm z h1
          · simp only [List.mem_singleton] at h2
            subst h2
            have := merge_inner_tight zone1.bounds g todo used
              { id := merged.length + 1, cells := zone1.cells, bounds := zone1.bounds
                cell_count := 0, labels := zone1.labels }
              (htodo (i, zone1) (List.mem_cons_self _ _)) htodo2
            rw [hmi] at this
            exact this

theorem snd_mem_of_mem_enumFrom {α : Type} :
    ∀ (l : List α) (n i : Nat) (x : α), (i, x) ∈ l.enumFrom n → x ∈ l
  | [], _, _, _, h => absurd h (List.not_mem_nil _)
  | a :: l, n, i, x, h => by
    simp only [List.enumFrom] at h
    rcases List.mem_cons.mp h with h1 | h2
    · have := congrArg Prod.snd h1
      simp only at this
      subst this
      exact List.mem_cons_self _ _
    · exact List.mem_cons_of_mem _ (snd_mem_of_mem_enumFrom l (n + 1) i x h2)

/-- **C7.**  Bounding boxes are tight: every zone built by
`group_contiguous_cells` has `bounds` equal to the exact componentwise
min/max over its cells, and `merge_zones` preserves this property
(tight inputs give tight outputs). -/
theorem c7_bounds_tightness :
    (∀ (cells : List Cell), ∀ z ∈ group_contiguous_cells cells, TightZone z) ∧
    (∀ (zones : List Zone) (max_gap : Nat), (∀ z ∈ zones, TightZone z) →
      ∀ z ∈ merge_zones zones max_gap, TightZone z) := by
  constructor
  · intro cells z hz
    unfold group_contiguous_cells at hz
    by_cases hc : cells = []
    · rw [if_pos hc] at hz
      exact absurd hz (List.not_mem_nil _)
    · rw [if_neg hc] at hz
      exact group_loop_tight cells cells [] [] (by intro z hz2; cases hz2) z hz
  · intro zones max_gap hin z hz
    unfold merge_zones at hz
    by_cases hlen : zones.length ≤ 1
    · rw [if_pos hlen] at hz
      exact hin z hz
    · rw [if_neg hlen] at hz
      apply merge_outer_tight max_gap zones.enum [] [] ?_ ?_ z hz
      · intro p hp
        exact hin p.2 (snd_mem_of_mem_enumFrom zones 0 p.1 p.2 (by
          obtain ⟨i, x⟩ := p
          exact hp))
      · intro z hz2
        cases hz2

/-- Witness for C7: a concrete two-cell sheet for the grouping part, and
two concrete tight zones for the merge part. -/
theorem c7_bounds_tightness_witness :
    (∀ z ∈ group_contiguous_cells [⟨1, 1, "a"⟩, ⟨1, 2, "b"⟩, ⟨5, 5, "c"⟩], TightZone z) ∧
    (∀ z ∈ [c8_z1, c8_z2], TightZone z) ∧
    (∀ z ∈ merge_zones [c8_z1, c8_z2] 1, TightZone z) :=
  ⟨c7_bounds_tightness.1 [⟨1, 1, "a"⟩, ⟨1, 2, "b"⟩, ⟨5, 5, "c"⟩],
   by decide,
   c7_bounds_tightness.2 [c8_z1, c8_z2] 1 (by decide)⟩

/-! ## C5: connected components -/

/-- Reachability inside a fixed cell set `s`: paths of orthogonal
adjacency steps whose every node (endpoints included) belongs to `s`. -/
inductive ReachIn (s : List Cell) : Cell → Cell → Prop
  | refl (a : Cell) (ha : a ∈ s) : ReachIn s a a
  | step (a b c : Cell) (hab : ReachIn s a b) (hc : c ∈ s)
      (hadj : adjacentCells c b = true) : ReachIn s a c

theorem adjacentCells_true_iff (a b : Cell) :
    adjacentCells a b = true ↔
      ((a.row = b.row + 1 ∨ b.row = a.row + 1) ∧ a.col = b.col) ∨
      ((a.col = b.col + 1 ∨ b.col = a.col + 1) ∧ a.row = b.row) := by
  unfold adjacentCells
  simp only [Bool.or_eq_true, Bool.and_eq_true, beq_iff_eq]
  constructor
  · intro h
    omega
  · intro h
    omega

theorem adjacentCells_symm (a b : Cell) : adjacentCells a b = adjacentCells b a := by
  rw [Bool.eq_iff_iff, adjacentCells_true_iff, adjacentCells_true_iff]
  constructor
  · intro h
    omega
  · intro h
    omega

theorem reach_mem {s : List Cell} {a b : Cell} (h : ReachIn s a b) : a ∈ s ∧ b ∈ s := by
  induction h with
  | refl ha => exact ⟨ha, ha⟩
  | step y z hab hc hadj ih => exact ⟨ih.1, hc⟩

theorem reach_mono {s t : List Cell} (hst : ∀ x ∈ s, x ∈ t) {a b : Cell}
    (h : ReachIn s a b) : ReachIn t a b := by
  induction h with
  | refl ha => exact ReachIn.refl _ (hst _ ha)
  | step y z hab hc hadj ih => exact ReachIn.step _ y z ih (hst z hc) hadj

theorem reach_trans {s : List Cell} {a b c : Cell} (h1 : ReachIn s a b)
    (h2 : ReachIn s b c) : ReachIn s a c := by
  induction h2 with
  | refl hd => exact h1
  | step y z hbe hf hadj ih => exact ReachIn.step a y z ih hf hadj

theorem reach_symm {s : List Cell} {a b : Cell} (h : ReachIn s a b) : ReachIn s b a := by
  induction h with
  | refl ha => exact ReachIn.refl _ ha
  | step y z hab hc hadj ih =>
    have hy : y ∈ s := (reach_mem hab).2
    have hzy : ReachIn s z y :=
      ReachIn.step z z y (ReachIn.refl z hc) hy (by rw [adjacentCells_symm]; exact hadj)
    exact reach_trans hzy ih

theorem countP_le_of_imp {α : Type} :
    ∀ (l : List α) (p q : α → Bool), (∀ x ∈ l, q x = true → p x = true) →
      l.countP q ≤ l.countP p
  | [], _, _, _ => le_refl _
  | a :: l, p, q, h => by
    have ht : l.countP q ≤ l.countP p :=
      countP_le_of_imp l p q (fun x hx => h x (List.mem_cons_of_mem _ hx))
    have ha := h a (List.mem_cons_self _ _)
    simp only [List.countP_cons]
    by_cases hq : q a = true
    · rw [if_pos hq, if_pos (ha hq)]
      omega
    · rw [if_neg hq]
      split <;> omega

theorem countP_lt_of_witness {α : Type} :
    ∀ (l : List α) (p q : α → Bool), (∀ x ∈ l, q x = true → p x = true) →
      ∀ x : α, x ∈ l → p x = true → q x = false → l.countP q < l.countP p
  | [], _, _, _, x, hx, _, _ => absurd hx (List.not_mem_nil _)
  | a :: l, p, q, h, x, hx, hpx, hqx => by
    have himp : ∀ y ∈ l, q y = true → p y = true :=
      fun y hy => h y (List.mem_cons_of_mem _ hy)
    simp only [List.countP_cons]
    rcases List.mem_cons.mp hx with h1 | h2
    · subst h1
      rw [if_pos hpx, if_neg (by rw [hqx]; exact Bool.false_ne_true)]
      have := countP_le_of_imp l p q himp
      omega
    · have hlt := countP_lt_of_witness l p q himp x h2 hpx hqx
      have hq2p := h a (List.mem_cons_self _ _)
      by_cases hq : q a = true
      · rw [if_pos hq, if_pos (hq2p hq)]
        omega
      · rw [if_neg hq]
        split <;> omega

/-- The workhorse invariant of the DFS loop: provided the stack holds
cells of the input, the fuel exceeds the loop's potential
`(#unvisited) * (len(cells) + 1) + len(stack)`, and the accumulated
zone is internally connected with the stack holding its frontier, the
loop returns (1) the zone extended by fresh, previously unvisited input
cells, (2) a visited set extending the old one, (3) a zone contained in
the input cells, (4) an internally connected zone, and (5) a zone all
of whose in-input neighbors are visited. -/
theorem zone_dfs_spec (cells : List Cell) :
    ∀ (fuel : Nat) (stack : List Cell) (visited : List Key) (zone : List Cell),
      (∀ c ∈ stack, c ∈ cells) →
      (cells.countP fun c => decide (cellKey c ∉ visited)) * (cells.length + 1) +
          stack.length < fuel →
      (∀ c ∈ zone, c ∈ cells) →
      (∀ a ∈ zone, ∀ b ∈ zone, ReachIn zone a b) →
      (∀ s ∈ stack, zone = [] ∨ ∃ d ∈ zone, adjacentCells s d = true) →
      (zone = [] → stack.length ≤ 1) →
      (∀ x ∈ cells, ∀ d ∈ zone, adjacentCells x d = true →
          cellKey x ∈ visited ∨ x ∈ stack) →
      (∃ newCells, (zone_dfs cells fuel stack visited zone).1 = zone ++ newCells ∧
          ∀ c ∈ newCells, c ∈ cells ∧ cellKey c ∉ visited) ∧
      (∀ k ∈ visited, k ∈ (zone_dfs cells fuel stack visited zone).2) ∧
      (∀ c ∈ (zone_dfs cells fuel stack visited zone).1, c ∈ cells) ∧
      (∀ a ∈ (zone_dfs cells fuel stack visited zone).1,
        ∀ b ∈ (zone_dfs cells fuel stack visited zone).1,
          ReachIn (zone_dfs cells fuel stack visited zone).1 a b) ∧
      (∀ x ∈ cells, ∀ d ∈ (zone_dfs cells fuel stack visited zone).1,
          adjacentCells x d = true → cellKey x ∈ (zone_dfs cells fuel stack visited zone).2) := by
  intro fuel
  induction fuel with
  | zero =>
    intro stack visited zone _ hfuel
    exact absurd hfuel (Nat.not_lt_zero _)
  | succ fuel ih =>
    intro stack visited zone hs hfuel hz hconn hstk hempty hI4
    cases stack with
    | nil =>
      rw [show zone_dfs cells (fuel + 1) [] visited zone = (zone, visited) from rfl]
      refine ⟨⟨[], by simp, by simp⟩, fun k hk => hk, hz, hconn, ?_⟩
      intro x hx d hd hadj
      rcases hI4 x hx d hd hadj with h | h
      · exact h
      · exact absurd h (List.not_mem_nil _)
    | cons current rest =>
      by_cases hv : cellKey current ∈ visited
      · have heq : zone_dfs cells (fuel + 1) (current :: rest) visited zone =
            zone_dfs cells fuel rest visited zone := by
          simp only [zone_dfs, if_pos hv]
        rw [heq]
        apply ih rest visited zone
        · exact fun c hc => hs c (List.mem_cons_of_mem _ hc)
        · exact Nat.lt_of_succ_lt_succ hfuel
        · exact hz
        · exact hconn
        · exact fun s hsm => hstk s (List.mem_cons_of_mem _ hsm)
        · intro hze
          have := hempty hze
          simp only [List.length_cons] at this
          omega
        · intro x hx d hd hadj
          rcases hI4 x hx d hd hadj with h | h
          · exact Or.inl h
          · rcases List.mem_cons.mp h with h1 | h2
            · subst h1
              exact Or.inl hv
            · exact Or.inr h2
      · have hcur_in : current ∈ cells := hs current (List.mem_cons_self _ _)
        have heq : zone_dfs cells (fuel + 1) (current :: rest) visited zone =
            zone_dfs cells fuel
              ((get_neighbors current cells (cellKey current :: visited)).reverse ++ rest)
              (cellKey current :: visited) (zone ++ [current]) := by
          simp only [zone_dfs, if_neg hv]
        rw [heq]
        -- abbreviations for the new state
        have hcur2 : current ∈ zone ++ [current] := by simp
        have hreach_to_cur : ∀ a ∈ zone ++ [current],
            ReachIn (zone ++ [current]) a current := by
          intro a ha
          rcases List.mem_append.mp ha with ha1 | ha2
          · rcases hstk current (List.mem_cons_self _ _) with hze | ⟨d, hd, hadj⟩
            · rw [hze] at ha1
              exact absurd ha1 (List.not_mem_nil _)
            · have h1 : ReachIn zone a d := hconn a ha1 d hd
              have h2 : ReachIn (zone ++ [current]) a d :=
                reach_mono (fun x hx => List.mem_append_left _ hx) h1
              exact ReachIn.step a d current h2 hcur2 hadj
          · simp only [List.mem_singleton] at ha2
            subst ha2
            exact ReachIn.refl a hcur2
        have main := ih
          ((get_neighbors current cells (cellKey current :: visited)).reverse ++ rest)
          (cellKey current :: visited) (zone ++ [current])
          (by -- stack elements are input cells
            intro c hc
            rcases List.mem_append.mp hc with h1 | h2
            · exact List.mem_of_mem_filter (List.mem_reverse.mp h1)
            · exact hs c (List.mem_cons_of_mem _ h2))
          (by -- the potential decreased
            have hlt : (cells.countP fun c => decide (cellKey c ∉ cellKey current :: visited)) <
                cells.countP fun c => decide (cellKey c ∉ visited) := by
              apply countP_lt_of_witness cells _ _ ?_ current hcur_in
              · simp only [decide_eq_true_eq]
                exact hv
              · simp only [decide_eq_false_iff_not, Decidable.not_not]
                exact List.mem_cons_self _ _
              · intro x hx
                simp only [decide_eq_true_eq]
                intro hx2 hx3
                exact hx2 (List.mem_cons_of_mem _ hx3)
            have hnb : (get_neighbors current cells (cellKey current :: visited)).length ≤
                cells.length := List.length_filter_le _ _
            have hmul : ((cells.countP fun c => decide (cellKey c ∉ cellKey current :: visited)) + 1) *
                (cells.length + 1) ≤
                (cells.countP fun c => decide (cellKey c ∉ visited)) * (cells.length + 1) :=
              Nat.mul_le_mul_right _ (by omega)
            have hexp : ((cells.countP fun c => decide (cellKey c ∉ cellKey current :: visited)) + 1) *
                (cells.length + 1) =
                (cells.countP fun c => decide (cellKey c ∉ cellKey current :: visited)) *
                  (cells.length + 1) + (cells.length + 1) := by ring
            simp only [List.length_append, List.length_reverse, List.length_cons] at hfuel ⊢
            omega)
          (by -- the zone stays inside the input cells
            intro c hc
            rcases List.mem_append.mp hc with h1 | h2
            · exact hz c h1
            · simp only [List.mem_singleton] at h2
              subst h2
              exact hcur_in)
          (by -- the zone stays internally connected
            intro a ha b hb
            exact reach_trans (hreach_to_cur a ha) (reach_symm (hreach_to_cur b hb)))
          (by -- stack elements stay adjacent to the zone
            intro s hsm
            rcases List.mem_append.mp hsm with h1 | h2
            · refine Or.inr ⟨current, hcur2, ?_⟩
              have hpred := (List.mem_filter.mp (List.mem_reverse.mp h1)).2
              rw [Bool.and_eq_true] at hpred
              exact hpred.2
            · rcases hstk s (List.mem_cons_of_mem _ h2) with hze | ⟨d, hd, hadj⟩
              · have := hempty hze
                simp only [List.length_cons] at this
                have hrest : rest = [] := List.length_eq_zero.mp (by omega)
                rw [hrest] at h2
                exact absurd h2 (List.not_mem_nil _)
              · exact Or.inr ⟨d, List.mem_append_left _ hd, hadj⟩)
          (by -- the zone is no longer empty
            intro h
            exact absurd h (by simp))
          (by -- every in-input neighbor of the zone is visited or stacked
            intro x hx d hd hadj
            rcases List.mem_append.mp hd with hd1 | hd2
            · rcases hI4 x hx d hd1 hadj with h | h
              · exact Or.inl (List.mem_cons_of_mem _ h)
              · rcases List.mem_cons.mp h with h1 | h2
                · subst h1
                  exact Or.inl (List.mem_cons_self _ _)
                · exact Or.inr (List.mem_append_right _ h2)
            · simp only [List.mem_singleton] at hd2
              rw [hd2] at hadj
              by_cases hxv : cellKey x ∈ cellKey current :: visited
              · exact Or.inl hxv
              · refine Or.inr (List.mem_append_left _ (List.mem_reverse.mpr
                  (List.mem_filter.mpr ⟨hx, ?_⟩)))
                rw [Bool.and_eq_true]
                constructor
                · simp only [Bool.not_eq_true', decide_eq_false_iff_not]
                  exact hxv
                · exact hadj)
        obtain ⟨⟨new2, hzeq, hnew2⟩, hmono, hsub, hconnOut, hI4Out⟩ := main
        refine ⟨⟨current :: new2, ?_, ?_⟩, ?_, hsub, hconnOut, hI4Out⟩
        · rw [hzeq]
          simp
        · intro c hc
          rcases List.mem_cons.mp hc with h1 | h2
          · subst h1
            exact ⟨hcur_in, hv⟩
          · refine ⟨(hnew2 c h2).1, fun hmem => (hnew2 c h2).2 (List.mem_cons_of_mem _ hmem)⟩
        · exact fun k hk => hmono k (List.mem_cons_of_mem _ hk)

/-- Pair-of-zones separation property used for C5: no cell of one zone
is orthogonally adjacent to a cell of the other. -/
def ZonesSeparated (z1 z2 : Zone) : Prop :=
  ∀ a ∈ z1.cells, ∀ b ∈ z2.cells,
    adjacentCells a b = false ∧ adjacentCells b a = false

theorem group_loop_spec (cells : List Cell) :
    ∀ (todo : List Cell) (visited : List Key) (zones : List Zone),
      (∀ c ∈ todo, c ∈ cells) →
      (∀ z ∈ zones, ∀ c ∈ z.cells, c ∈ cells) →
      (∀ z ∈ zones, ∀ x ∈ cells, ∀ d ∈ z.cells,
          adjacentCells x d = true → cellKey x ∈ visited) →
      (∀ z ∈ zones, ∀ a ∈ z.cells, ∀ b ∈ z.cells, ReachIn z.cells a b) →
      List.Pairwise ZonesSeparated zones →
      (∀ z ∈ group_loop cells todo visited zones, ∀ a ∈ z.cells, ∀ b ∈ z.cells,
          ReachIn z.cells a b) ∧
      List.Pairwise ZonesSeparated (group_loop cells todo visited zones) := by
  intro todo
  induction todo with
  | nil =>
    intro visited zones _ _ _ hconnz hpw
    exact ⟨hconnz, hpw⟩
  | cons cell todo ihtodo =>
    intro visited zones htodo hzsub hI4z hconnz hpw
    have htodo2 : ∀ c ∈ todo, c ∈ cells := fun c hc => htodo c (List.mem_cons_of_mem _ hc)
    by_cases hv : cellKey cell ∈ visited
    · simp only [group_loop, if_pos hv]
      exact ihtodo visited zones htodo2 hzsub hI4z hconnz hpw
    · have hspec := zone_dfs_spec cells (dfsFuel cells visited) [cell] visited []
        (by
          intro c hc
          simp only [List.mem_singleton] at hc
          subst hc
          exact htodo c (List.mem_cons_self _ _))
        (by
          unfold dfsFuel
          simp only [List.length_cons, List.length_nil]
          omega)
        (by intro c hc; exact absurd hc (List.not_mem_nil _))
        (by intro a ha; exact absurd ha (List.not_mem_nil _))
        (by intro s hs; exact Or.inl rfl)
        (by intro _; simp)
        (by intro x hx d hd; exact absurd hd (List.not_mem_nil _))
      cases hr : zone_dfs cells (dfsFuel cells visited) [cell] visited [] with
      | mk zone_cells visited2 =>
        rw [hr] at hspec
        obtain ⟨⟨newCells, hzeq, hnew⟩, hmono, hsub, hconnNew, hI4New⟩ := hspec
        simp only [List.nil_append] at hzeq
        simp only [group_loop, if_neg hv, hr]
        cases zone_cells with
        | nil =>
          apply ihtodo visited2 zones htodo2 hzsub ?_ hconnz hpw
          intro z hz x hx d hd hadj
          exact hmono (cellKey x) (hI4z z hz x hx d hd hadj)
        | cons c0 zrest =>
          apply ihtodo visited2 _ htodo2
          · intro z hz c hc
            rcases List.mem_append.mp hz with h1 | h2
            · exact hzsub z h1 c hc
            · simp only [List.mem_singleton] at h2
              subst h2
              exact hsub c hc
          · intro z hz x hx d hd hadj
            rcases List.mem_append.mp hz with h1 | h2
            · exact hmono (cellKey x) (hI4z z h1 x hx d hd hadj)
            · simp only [List.mem_singleton] at h2
              subst h2
              exact hI4New x hx d hd hadj
          · intro z hz a ha b hb
            rcases List.mem_append.mp hz with h1 | h2
            · exact hconnz z h1 a ha b hb
            · simp only [List.mem_singleton] at h2
              subst h2
              exact hconnNew a ha b hb
          · rw [List.pairwise_append]
            refine ⟨hpw, List.pairwise_singleton _ _, ?_⟩
            intro z1 hz1 z2 hz2 a ha b hb
            simp only [List.mem_singleton] at hz2
            subst hz2
            have hb2 : b ∈ newCells := by
              have : b ∈ (c0 :: zrest : List Cell) := hb
              rw [hzeq] at this
              exact this
            have hbc : b ∈ cells := (hnew b hb2).1
            have hbnv : cellKey b ∉ visited := (hnew b hb2).2
            have hba : adjacentCells b a = false := by
              rw [Bool.eq_false_iff]
              intro htrue
              exact hbnv (hI4z z1 hz1 b hbc a ha htrue)
            refine ⟨?_, hba⟩
            rw [adjacentCells_symm]
            exact hba

/-- **C5.**  `group_contiguous_cells` returns genuine maximal
4-connected components: within every returned zone any two cells are
joined by a path of orthogonal adjacencies that stays inside that
zone's cells, and no cell of one returned zone is orthogonally adjacent
to a cell of a different returned zone. -/
theorem c5_connected_components (cells : List Cell)
    (hdist : List.Pairwise (fun a b => cellKey a ≠ cellKey b) cells) :
    (∀ z ∈ group_contiguous_cells cells, ∀ a ∈ z.cells, ∀ b ∈ z.cells,
        ReachIn z.cells a b) ∧
    List.Pairwise ZonesSeparated (group_contiguous_cells cells) := by
  unfold group_contiguous_cells
  by_cases hc : cells = []
  · rw [if_pos hc]
    exact ⟨fun z hz => absurd hz (List.not_mem_nil _), List.Pairwise.nil⟩
  · rw [if_neg hc]
    exact group_loop_spec cells cells [] [] (fun c h => h)
      (fun z hz => absurd hz (List.not_mem_nil _))
      (fun z hz => absurd hz (List.not_mem_nil _))
      (fun z hz => absurd hz (List.not_mem_nil _))
      List.Pairwise.nil

/-- Witness for C5 at a concrete input: three cells with pairwise
distinct coordinates forming two zones (an L-domino and an isolated
cell). -/
theorem c5_connected_components_witness :
    List.Pairwise (fun a b => cellKey a ≠ cellKey b)
      [⟨1, 1, "a"⟩, ⟨1, 2, "b"⟩, ⟨3, 3, "c"⟩] ∧
    ((∀ z ∈ group_contiguous_cells [⟨1, 1, "a"⟩, ⟨1, 2, "b"⟩, ⟨3, 3, "c"⟩],
        ∀ a ∈ z.cells, ∀ b ∈ z.cells, ReachIn z.cells a b) ∧
     List.Pairwise ZonesSeparated
       (group_contiguous_cells [⟨1, 1, "a"⟩, ⟨1, 2, "b"⟩, ⟨3, 3, "c"⟩])) :=
  ⟨by decide, c5_connected_components [⟨1, 1, "a"⟩, ⟨1, 2, "b"⟩, ⟨3, 3, "c"⟩] (by decide)⟩
